import Mathlib

/-!
Shallow embedding of `wunderpahkina-vol9` (`src/main.rs`): a one-dimensional
cellular automaton on the integer line.  A `Row` stores the set of filled
positions together with cached minimum and maximum; `Row.next` applies the
transition rule, and `Row.detect_pattern` classifies the evolution of a line
as blinking, gliding, vanishing or other.

Machine integers of the source (`i32` positions, `u32` depths) are embedded
as `ℤ` and `ℕ`: every run considered here stays far below the 32-bit bounds
(positions move by at most 2 per step and depths are bounded by `max_depth`),
so no wrap-around is modelled.
-/

/-- Enumeration for each possible pattern definition (Rust `enum Pattern`). -/
inductive Pattern
  | Blinking
  | Gliding
  | Vanishing
  | Other
deriving DecidableEq

/-- Model for a line in a grid paper (Rust `struct Row`): filled squares in a
set, plus cached minimum and maximum values. -/
structure Row where
  values : Finset ℤ
  min : ℤ
  max : ℤ
deriving DecidableEq

/-- `Row::new`: empty set of values, `min = max = 0`. -/
def Row.new : Row := ⟨∅, 0, 0⟩

/-- `Row::insert`: update `min` and `max` by the source's if/else-if chain
(`is_empty`, then `value < min`, then `value > max`), then add the value to
the set. -/
def Row.insert (r : Row) (value : ℤ) : Row :=
  let mm : ℤ × ℤ :=
    if r.values = ∅ then (value, value)
    else if value < r.min then (value, r.max)
    else if value > r.max then (r.min, value)
    else (r.min, r.max)
  ⟨Insert.insert value r.values, mm.1, mm.2⟩

/-- Loop body of `Row::from_string`: walk the characters left to right,
inserting the 0-based index of every `'#'`. -/
def Row.from_string_go : List Char → ℤ → Row → Row
  | [], _, row => row
  | c :: cs, index, row =>
      Row.from_string_go cs (index + 1) (if c = '#' then row.insert index else row)

/-- `Row::from_string`. -/
def Row.from_string (s : String) : Row :=
  Row.from_string_go s.data 0 Row.new

/-- The integers of the Rust half-open range `lo..hi`, in order. -/
def intRange (lo hi : ℤ) : List ℤ :=
  (List.range (hi - lo).toNat).map fun i : ℕ => lo + (i : ℤ)

/-- `Row::calc_neighbor_sum`: how many of `index-2, index-1, index+1, index+2`
are members of the filled set. -/
def Row.calc_neighbor_sum (r : Row) (index : ℤ) : ℕ :=
  ([index - 2, index - 1, index + 1, index + 2].map
      (fun x => if x ∈ r.values then 1 else 0)).sum

/-- `Row::test_rule_1` (birth): neighbor sum is 2 or 3. -/
def Row.test_rule_1 (r : Row) (num : ℤ) : Bool :=
  r.calc_neighbor_sum num == 2 || r.calc_neighbor_sum num == 3

/-- `Row::test_rule_2` (survival): neighbor sum is 2 or 4. -/
def Row.test_rule_2 (r : Row) (num : ℤ) : Bool :=
  r.calc_neighbor_sum num == 2 || r.calc_neighbor_sum num == 4

/-- `Row::next`: for every `num` in `(min - 1)..(max + 2)`, insert `num` into a
fresh row iff rule 2 (when currently filled) or rule 1 (when currently empty)
applies. -/
def Row.next (r : Row) : Row :=
  (intRange (r.min - 1) (r.max + 2)).foldl
    (fun row num =>
      if (if num ∈ r.values then r.test_rule_2 num else r.test_rule_1 num)
      then row.insert num else row)
    Row.new

/-- Rust `PartialEq for Row`: equality of the value sets only. -/
def Row.eqRow (r other : Row) : Bool :=
  decide (r.values = other.values)

/-- `Row::eq_shift`: every value shifted by `offset` is contained in `other`. -/
def Row.eq_shift (r other : Row) (offset : ℤ) : Bool :=
  decide (∀ x ∈ r.values, x + offset ∈ other.values)

/-- `Row::is_gliding`. -/
def Row.is_gliding (r other : Row) : Bool :=
  r.values.card == other.values.card
    && r.min != other.min
    && r.eq_shift other (other.min - r.min)

/-- One pass of the body of `Row::detect_pattern_recursive` (`main.rs` lines
234-257): either a terminal `Pattern` or the state (current row, depth,
history) the tail call continues with. -/
inductive StepOut
  | term (p : Pattern)
  | cont (r : Row) (current_depth : ℕ) (previous_rows : List Row)
deriving DecidableEq

/-- The four checks of `Row::detect_pattern_recursive` in source order:
vanishing, blinking (against the history without its last entry), gliding
(against the whole history), then the step budget. -/
def Row.classify_step (r : Row) (max_depth current_depth : ℕ)
    (previous_rows : List Row) : StepOut :=
  if r.next.values = ∅ then .term .Vanishing
  else if previous_rows.dropLast.any (fun x => r.next.eqRow x) then .term .Blinking
  else if previous_rows.any (fun x => r.next.is_gliding x) then .term .Gliding
  else if current_depth ≥ max_depth then .term .Other
  else .cont r.next (current_depth + 1) (previous_rows ++ [r.next])

/-- `Row::detect_pattern_recursive`, recursing on `max_depth - current_depth`
exactly as the Rust recursion does. -/
def Row.detect_pattern_recursive (r : Row) (max_depth current_depth : ℕ)
    (previous_rows : List Row) : Pattern :=
  if r.next.values = ∅ then .Vanishing
  else if previous_rows.dropLast.any (fun x => r.next.eqRow x) then .Blinking
  else if previous_rows.any (fun x => r.next.is_gliding x) then .Gliding
  else if _h : current_depth ≥ max_depth then .Other
  else r.next.detect_pattern_recursive max_depth (current_depth + 1)
        (previous_rows ++ [r.next])
termination_by max_depth - current_depth
decreasing_by simp_wf; omega

/-- `Row.detect_pattern_recursive` with the remaining budget
`max_depth - current_depth` made an explicit fuel argument, so that it
computes by structural recursion (`detect_pattern_recursive_eq_go` below
proves the two agree). -/
def Row.dpr_go : Row → ℕ → List Row → Pattern
  | r, fuel, previous_rows =>
    if r.next.values = ∅ then .Vanishing
    else if previous_rows.dropLast.any (fun x => r.next.eqRow x) then .Blinking
    else if previous_rows.any (fun x => r.next.is_gliding x) then .Gliding
    else match fuel with
      | 0 => .Other
      | fuel' + 1 => Row.dpr_go r.next fuel' (previous_rows ++ [r.next])

/-- `Row::detect_pattern`: history starts with the initial row, depth starts
at 2. -/
def Row.detect_pattern (s : String) (max_depth : ℕ) : Pattern :=
  (Row.from_string s).detect_pattern_recursive max_depth 2 [Row.from_string s]
theorem Row.insert_values (r : Row) (v : ℤ) :
    (r.insert v).values = Insert.insert v r.values := rfl

theorem Row.foldl_insert_values (P : ℤ → Bool) :
    ∀ (l : List ℤ) (a : Row),
      (l.foldl (fun row num => if P num then row.insert num else row) a).values
        = a.values ∪ (l.filter P).toFinset := by
  intro l
  induction l with
  | nil => intro a; simp
  | cons x xs ih =>
      intro a
      rw [List.foldl_cons, ih]
      by_cases hx : P x = true
      · simp only [hx, if_pos, List.filter_cons_of_pos, Row.insert_values]
        ext y
        simp only [Finset.mem_union, Finset.mem_insert, List.mem_toFinset,
          List.mem_filter, List.mem_cons]
        tauto
      · rw [if_neg (by simp [hx]), List.filter_cons_of_neg (by simp [hx])]

theorem mem_intRange {lo hi p : ℤ} : p ∈ intRange lo hi ↔ lo ≤ p ∧ p < hi := by
  rw [intRange, List.mem_map]
  constructor
  · rintro ⟨i, hi', rfl⟩
    rw [List.mem_range] at hi'
    omega
  · intro h
    refine ⟨(p - lo).toNat, ?_, by omega⟩
    rw [List.mem_range]
    omega

theorem Row.mem_next {r : Row} {p : ℤ} :
    p ∈ r.next.values ↔
      (r.min - 1 ≤ p ∧ p ≤ r.max + 1 ∧
        (if p ∈ r.values then r.test_rule_2 p else r.test_rule_1 p) = true) := by
  unfold Row.next
  rw [Row.foldl_insert_values]
  simp only [Row.new, Finset.empty_union, List.mem_toFinset, List.mem_filter,
    mem_intRange]
  constructor
  · rintro ⟨⟨h1, h2⟩, h3⟩; exact ⟨by omega, by omega, h3⟩
  · rintro ⟨h1, h2, h3⟩; exact ⟨⟨by omega, by omega⟩, h3⟩

theorem Row.test_rule_1_iff {r : Row} {p : ℤ} :
    r.test_rule_1 p = true ↔
      (r.calc_neighbor_sum p = 2 ∨ r.calc_neighbor_sum p = 3) := by
  simp [Row.test_rule_1]

theorem Row.test_rule_2_iff {r : Row} {p : ℤ} :
    r.test_rule_2 p = true ↔
      (r.calc_neighbor_sum p = 2 ∨ r.calc_neighbor_sum p = 4) := by
  simp [Row.test_rule_2]

theorem Row.calc_neighbor_sum_eq (r : Row) (p : ℤ) :
    r.calc_neighbor_sum p =
      (if p - 2 ∈ r.values then 1 else 0) + (if p - 1 ∈ r.values then 1 else 0)
        + (if p + 1 ∈ r.values then 1 else 0)
        + (if p + 2 ∈ r.values then 1 else 0) := by
  simp [Row.calc_neighbor_sum]
  ring

/-- The cached `min`/`max` invariant: when the filled set is non-empty, `min`
is a member and a lower bound, and `max` is a member and an upper bound. -/
def RowInv (r : Row) : Prop :=
  r.values.Nonempty →
    r.min ∈ r.values ∧ r.max ∈ r.values ∧ ∀ x ∈ r.values, r.min ≤ x ∧ x ≤ r.max

theorem RowInv_new : RowInv Row.new := by
  intro h
  simp [Row.new] at h

theorem RowInv_insert {r : Row} (hr : RowInv r) (v : ℤ) : RowInv (r.insert v) := by
  intro _
  unfold Row.insert
  by_cases h0 : r.values = ∅
  · simp [h0]
  · obtain ⟨hmin, hmax, hbnd⟩ := hr (Finset.nonempty_iff_ne_empty.mpr h0)
    by_cases h1 : v < r.min
    · simp only [h0, if_neg, ite_false, h1, if_pos, ite_true]
      refine ⟨by simp, Finset.mem_insert_of_mem hmax, ?_⟩
      intro x hx
      rcases Finset.mem_insert.mp hx with rfl | hx
      · have := (hbnd r.min hmin).2
        omega
      · have := hbnd x hx
        omega
    · by_cases h2 : v > r.max
      · simp only [h0, ite_false, h1, h2, if_pos, ite_true, if_neg]
        refine ⟨Finset.mem_insert_of_mem hmin, by simp, ?_⟩
        intro x hx
        rcases Finset.mem_insert.mp hx with rfl | hx
        · have := (hbnd r.max hmax).1
          omega
        · have := hbnd x hx
          omega
      · simp only [h0, h1, h2, ite_false, if_neg]
        refine ⟨Finset.mem_insert_of_mem hmin, Finset.mem_insert_of_mem hmax, ?_⟩
        intro x hx
        rcases Finset.mem_insert.mp hx with rfl | hx
        · omega
        · exact hbnd x hx

theorem RowInv_foldl (P : ℤ → Bool) :
    ∀ (l : List ℤ) (a : Row), RowInv a →
      RowInv (l.foldl (fun row num => if P num then row.insert num else row) a) := by
  intro l
  induction l with
  | nil => intro a ha; exact ha
  | cons x xs ih =>
      intro a ha
      rw [List.foldl_cons]
      refine ih _ ?_
      by_cases hx : P x = true
      · rw [if_pos hx]; exact RowInv_insert ha x
      · rw [if_neg (by simp [hx])]; exact ha

theorem RowInv_next (r : Row) : RowInv r.next := by
  unfold Row.next
  exact RowInv_foldl _ _ Row.new RowInv_new

theorem RowInv_from_string_go :
    ∀ (cs : List Char) (i : ℤ) (a : Row), RowInv a →
      RowInv (Row.from_string_go cs i a) := by
  intro cs
  induction cs with
  | nil => intro i a ha; exact ha
  | cons c cs ih =>
      intro i a ha
      rw [Row.from_string_go]
      refine ih _ _ ?_
      by_cases hc : c = '#'
      · rw [if_pos hc]; exact RowInv_insert ha i
      · rw [if_neg hc]; exact ha

theorem RowInv_from_string (s : String) : RowInv (Row.from_string s) :=
  RowInv_from_string_go s.data 0 Row.new RowInv_new

theorem Row.ext_of (a b : Row) (h1 : a.values = b.values) (h2 : a.min = b.min)
    (h3 : a.max = b.max) : a = b := by
  cases a; cases b
  simp_all

/-- Rows with the same non-empty filled set and the cached invariant agree on
all fields. -/
theorem Row.eq_of_values_eq {a b : Row} (ha : RowInv a) (hb : RowInv b)
    (hne : a.values.Nonempty) (h : a.values = b.values) : a = b := by
  obtain ⟨hamin, hamax, habnd⟩ := ha hne
  obtain ⟨hbmin, hbmax, hbbnd⟩ := hb (h ▸ hne)
  refine Row.ext_of a b h ?_ ?_
  · have h1 := (habnd b.min (h ▸ hbmin)).1
    have h2 := (hbbnd a.min (h ▸ hamin)).1
    omega
  · have h1 := (habnd b.max (h ▸ hbmax)).2
    have h2 := (hbbnd a.max (h ▸ hamax)).2
    omega

/-- One unfolding of the recursion: `Row.detect_pattern_recursive` performs
exactly the checks of `Row.classify_step` and continues on `.cont`. -/
theorem Row.detect_pattern_recursive_eq_step (r : Row) (md cd : ℕ)
    (prev : List Row) :
    Row.detect_pattern_recursive r md cd prev =
      match Row.classify_step r md cd prev with
      | .term p => p
      | .cont r' cd' prev' => Row.detect_pattern_recursive r' md cd' prev' := by
  rw [Row.detect_pattern_recursive, Row.classify_step]
  split_ifs <;> rfl

/-- The well-founded recursion agrees with the fuel version at fuel
`max_depth - current_depth`. -/
theorem Row.detect_pattern_recursive_eq_go :
    ∀ (n : ℕ) (md cd : ℕ) (r : Row) (prev : List Row), md - cd = n →
      Row.detect_pattern_recursive r md cd prev = Row.dpr_go r n prev := by
  intro n
  induction n with
  | zero =>
      intro md cd r prev h
      rw [Row.detect_pattern_recursive, Row.dpr_go]
      split_ifs with h1 h2 h3 h4
      · rfl
      · rfl
      · rfl
      · rfl
      · omega
  | succ n ih =>
      intro md cd r prev h
      rw [Row.detect_pattern_recursive, Row.dpr_go]
      split_ifs with h1 h2 h3 h4
      · rfl
      · rfl
      · rfl
      · omega
      · exact ih md (cd + 1) r.next (prev ++ [r.next]) (by omega)

theorem Row.detect_pattern_eq_go (s : String) (md : ℕ) :
    Row.detect_pattern s md = Row.dpr_go (Row.from_string s) (md - 2)
      [Row.from_string s] :=
  Row.detect_pattern_recursive_eq_go (md - 2) md 2 _ _ rfl

theorem Row.calc_neighbor_sum_card (r : Row) (p : ℤ) :
    r.calc_neighbor_sum p =
      (({p - 2, p - 1, p + 1, p + 2} : Finset ℤ).filter (· ∈ r.values)).card := by
  rw [Finset.card_filter]
  rw [Finset.sum_insert (by simp; omega), Finset.sum_insert (by simp; omega),
    Finset.sum_insert (by simp), Finset.sum_singleton]
  rw [Row.calc_neighbor_sum_eq]
  ring

theorem Row.calc_neighbor_sum_le (r : Row) (p : ℤ) :
    r.calc_neighbor_sum p ≤ 4 := by
  rw [Row.calc_neighbor_sum_eq]
  split_ifs <;> omega

/-- C1: for a row with a non-empty filled set, the filled set of `next` is
exactly the set of integers `p` in `[min - 1, max + 1]` whose neighbor sum
(members of the filled set among `p-2, p-1, p+1, p+2`, at most 4) is 2 or 4
when `p` is filled and 2 or 3 when `p` is empty. -/
theorem claim_C1 (r : Row) (_hne : r.values ≠ ∅) (p : ℤ) :
    (p ∈ r.next.values ↔
      (r.min - 1 ≤ p ∧ p ≤ r.max + 1 ∧
        (p ∈ r.values → (r.calc_neighbor_sum p = 2 ∨ r.calc_neighbor_sum p = 4)) ∧
        (p ∉ r.values → (r.calc_neighbor_sum p = 2 ∨ r.calc_neighbor_sum p = 3)))) ∧
    r.calc_neighbor_sum p =
      (({p - 2, p - 1, p + 1, p + 2} : Finset ℤ).filter (· ∈ r.values)).card ∧
    r.calc_neighbor_sum p ≤ 4 := by
  refine ⟨?_, Row.calc_neighbor_sum_card r p, Row.calc_neighbor_sum_le r p⟩
  rw [Row.mem_next]
  have hrule : ((if p ∈ r.values then r.test_rule_2 p else r.test_rule_1 p) = true) ↔
      ((p ∈ r.values → (r.calc_neighbor_sum p = 2 ∨ r.calc_neighbor_sum p = 4)) ∧
       (p ∉ r.values → (r.calc_neighbor_sum p = 2 ∨ r.calc_neighbor_sum p = 3))) := by
    by_cases hp : p ∈ r.values
    · simp [hp, Row.test_rule_2_iff]
    · simp [hp, Row.test_rule_1_iff]
  rw [hrule]

theorem claim_C1_witness :
    (Row.from_string "##").values ≠ ∅ ∧
    (((0 : ℤ) ∈ (Row.from_string "##").next.values ↔
      ((Row.from_string "##").min - 1 ≤ (0 : ℤ) ∧
        (0 : ℤ) ≤ (Row.from_string "##").max + 1 ∧
        ((0 : ℤ) ∈ (Row.from_string "##").values →
          ((Row.from_string "##").calc_neighbor_sum 0 = 2 ∨
            (Row.from_string "##").calc_neighbor_sum 0 = 4)) ∧
        ((0 : ℤ) ∉ (Row.from_string "##").values →
          ((Row.from_string "##").calc_neighbor_sum 0 = 2 ∨
            (Row.from_string "##").calc_neighbor_sum 0 = 3)))) ∧
    (Row.from_string "##").calc_neighbor_sum 0 =
      ((({(0 : ℤ) - 2, (0 : ℤ) - 1, (0 : ℤ) + 1, (0 : ℤ) + 2} : Finset ℤ).filter
          (· ∈ (Row.from_string "##").values)).card) ∧
    (Row.from_string "##").calc_neighbor_sum 0 ≤ 4) :=
  ⟨by decide, claim_C1 (Row.from_string "##") (by decide) 0⟩

/-- C7: `eq_shift` is the asymmetric shifted-subset test, it coincides with
exact shifted equality when the cardinalities agree, and on `"####."` against
`".####"` it holds at offset 1 and fails at offsets 0 and -1. -/
theorem claim_C7 :
    (∀ (a b : Row) (k : ℤ),
        a.eq_shift b k = true ↔ ∀ x ∈ a.values, x + k ∈ b.values) ∧
    (∀ (a b : Row) (k : ℤ), a.values.card = b.values.card →
        (a.eq_shift b k = true ↔ a.values.image (fun x => x + k) = b.values)) ∧
    Row.eq_shift (Row.from_string "####.") (Row.from_string ".####") 1 = true ∧
    Row.eq_shift (Row.from_string "####.") (Row.from_string ".####") 0 = false ∧
    Row.eq_shift (Row.from_string "####.") (Row.from_string ".####") (-1) = false := by
  refine ⟨?_, ?_, by decide, by decide, by decide⟩
  · intro a b k
    simp [Row.eq_shift]
  · intro a b k hcard
    constructor
    · intro h
      have h' : ∀ x ∈ a.values, x + k ∈ b.values := by simpa [Row.eq_shift] using h
      apply Finset.eq_of_subset_of_card_le
      · exact Finset.image_subset_iff.mpr h'
      · rw [Finset.card_image_of_injective _ (add_left_injective k)]
        omega
    · intro h
      simp only [Row.eq_shift, decide_eq_true_eq]
      intro x hx
      rw [← h]
      exact Finset.mem_image_of_mem _ hx

/-- C6: for every input string and every `maxDepth ≥ 2`, `detect_pattern`
returns one of the four pattern values (it is a total function). -/
theorem claim_C6 (s : String) (md : ℕ) (_h : 2 ≤ md) :
    Row.detect_pattern s md = Pattern.Blinking ∨
    Row.detect_pattern s md = Pattern.Gliding ∨
    Row.detect_pattern s md = Pattern.Vanishing ∨
    Row.detect_pattern s md = Pattern.Other := by
  cases hp : Row.detect_pattern s md
  · exact Or.inl rfl
  · exact Or.inr (Or.inl rfl)
  · exact Or.inr (Or.inr (Or.inl rfl))
  · exact Or.inr (Or.inr (Or.inr rfl))

theorem claim_C6_witness :
    2 ≤ 100 ∧
    (Row.detect_pattern "#" 100 = Pattern.Blinking ∨
     Row.detect_pattern "#" 100 = Pattern.Gliding ∨
     Row.detect_pattern "#" 100 = Pattern.Vanishing ∨
     Row.detect_pattern "#" 100 = Pattern.Other) :=
  ⟨by norm_num, claim_C6 "#" 100 (by norm_num)⟩

/-- C10: on the first simulation step (depth 2) the history holds only the
initial configuration, the blinking comparison slice is empty, and the step
can never yield Blinking. -/
theorem claim_C10 (r : Row) (md : ℕ) :
    Row.classify_step r md 2 [r] ≠ StepOut.term Pattern.Blinking := by
  rw [Row.classify_step]
  split_ifs with h1 h2 h3 h4
  · simp
  · simp at h2
  · simp
  · simp
  · simp

theorem Row.is_gliding_iff {a b : Row} :
    a.is_gliding b = true ↔
      (a.values.card = b.values.card ∧ a.min ≠ b.min ∧
        ∀ x ∈ a.values, x + (b.min - a.min) ∈ b.values) := by
  simp [Row.is_gliding, Row.eq_shift, Bool.and_eq_true, and_assoc]

theorem Row.classify_step_blinking_iff (r : Row) (md cd : ℕ) (prev : List Row) :
    Row.classify_step r md cd prev = .term .Blinking ↔
      (r.next.values ≠ ∅ ∧ ∃ x ∈ prev.dropLast, r.next.values = x.values) := by
  rw [Row.classify_step]
  split_ifs with h1 h2 h3 h4
  · simp [h1]
  · simp only [List.any_eq_true, Row.eqRow, decide_eq_true_eq] at h2
    simp [h1, h2]
  · simp only [List.any_eq_true, Row.eqRow, decide_eq_true_eq] at h2
    simp [h2]
  · simp only [List.any_eq_true, Row.eqRow, decide_eq_true_eq] at h2
    simp [h2]
  · simp only [List.any_eq_true, Row.eqRow, decide_eq_true_eq] at h2
    simp [h2]

theorem Row.classify_step_gliding_of (r : Row) (md cd : ℕ) (prev : List Row)
    (h1 : r.next.values ≠ ∅)
    (h2 : ∀ x ∈ prev.dropLast, r.next.values ≠ x.values)
    (h3 : ∃ x ∈ prev, r.next.is_gliding x = true) :
    Row.classify_step r md cd prev = .term .Gliding := by
  have hc2 : ¬(prev.dropLast.any (fun x => r.next.eqRow x) = true) := by
    intro hc
    obtain ⟨x, hx, hvx⟩ := List.any_eq_true.mp hc
    exact h2 x hx (by simpa [Row.eqRow] using hvx)
  have hc3 : prev.any (fun x => r.next.is_gliding x) = true := by
    obtain ⟨x, hx, hg⟩ := h3
    exact List.any_eq_true.mpr ⟨x, hx, hg⟩
  rw [Row.classify_step, if_neg h1, if_neg hc2, if_pos hc3]

theorem Row.classify_step_other_iff (r : Row) (md cd : ℕ) (prev : List Row) :
    Row.classify_step r md cd prev = .term .Other ↔
      (r.next.values ≠ ∅ ∧
       (∀ x ∈ prev.dropLast, r.next.values ≠ x.values) ∧
       (∀ x ∈ prev, r.next.is_gliding x = false) ∧
       md ≤ cd) := by
  rw [Row.classify_step]
  split_ifs with h1 h2 h3 h4
  · simp [h1]
  · simp only [List.any_eq_true, Row.eqRow, decide_eq_true_eq] at h2
    obtain ⟨x, hx, hvx⟩ := h2
    refine iff_of_false (by simp) ?_
    rintro ⟨-, hall, -, -⟩
    exact hall x hx hvx
  · obtain ⟨x, hx, hgx⟩ := List.any_eq_true.mp h3
    refine iff_of_false (by simp) ?_
    rintro ⟨-, -, hall, -⟩
    rw [hall x hx] at hgx
    cases hgx
  · refine iff_of_true rfl ⟨h1, ?_, ?_, h4⟩
    · intro x hx hvx
      exact h2 (List.any_eq_true.mpr ⟨x, hx, by simp [Row.eqRow, hvx]⟩)
    · intro x hx
      rcases hg : r.next.is_gliding x with _ | _
      · rfl
      · exact absurd (List.any_eq_true.mpr ⟨x, hx, hg⟩) h3
  · refine iff_of_false (by simp) ?_
    rintro ⟨-, -, -, hle⟩
    exact h4 hle

theorem Row.next_of_empty {r : Row} (h : r.values = ∅) : r.next.values = ∅ := by
  rw [Finset.eq_empty_iff_forall_not_mem]
  intro p hp
  rw [Row.mem_next] at hp
  obtain ⟨-, -, hrule⟩ := hp
  rw [if_neg (by simp [h]), Row.test_rule_1_iff, Row.calc_neighbor_sum_eq] at hrule
  simp [h] at hrule

theorem Row.dpr_vanishing (r : Row) (md cd : ℕ) (prev : List Row)
    (h : r.next.values = ∅) :
    Row.detect_pattern_recursive r md cd prev = .Vanishing := by
  rw [Row.detect_pattern_recursive, if_pos h]

/-- C4: the transition of an empty configuration is empty, any configuration
whose transition is empty classifies as Vanishing, and both the empty line
and `"########"` classify as Vanishing. -/
theorem claim_C4 :
    (∀ r : Row, r.values = ∅ → r.next.values = ∅) ∧
    (∀ (r : Row) (md cd : ℕ) (prev : List Row), r.next.values = ∅ →
        Row.detect_pattern_recursive r md cd prev = Pattern.Vanishing) ∧
    Row.detect_pattern "" 100 = Pattern.Vanishing ∧
    Row.detect_pattern "########" 100 = Pattern.Vanishing := by
  refine ⟨fun r h => Row.next_of_empty h, Row.dpr_vanishing, ?_, ?_⟩
  · rw [Row.detect_pattern_eq_go]
    decide
  · rw [Row.detect_pattern_eq_go]
    decide

/-- C8: rows built by `from_string`, by `next`, and by `insert` from a row
already satisfying the invariant all keep `min` the least and `max` the
greatest member of the (non-empty) filled set. -/
theorem claim_C8 :
    (∀ s : String, RowInv (Row.from_string s)) ∧
    (∀ r : Row, RowInv r.next) ∧
    (∀ (r : Row) (v : ℤ), RowInv r → RowInv (r.insert v)) :=
  ⟨RowInv_from_string, RowInv_next, fun _ v hr => RowInv_insert hr v⟩

theorem Row.new_values : Row.new.values = ∅ := rfl

theorem Row.mem_next_bounds {r : Row} {p : ℤ} (h : p ∈ r.next.values) :
    r.min - 1 ≤ p ∧ p ≤ r.max + 1 := by
  rw [Row.mem_next] at h
  exact ⟨h.1, h.2.1⟩

theorem Row.foldl_insert_empty_eq (P : ℤ → Bool) :
    ∀ (l : List ℤ) (a : Row), (a.values = ∅ → a = Row.new) →
      ((l.foldl (fun row num => if P num then row.insert num else row) a).values = ∅ →
        l.foldl (fun row num => if P num then row.insert num else row) a = Row.new) := by
  intro l
  induction l with
  | nil => intro a ha; exact ha
  | cons x xs ih =>
      intro a ha
      rw [List.foldl_cons]
      refine ih _ ?_
      by_cases hx : P x = true
      · rw [if_pos hx]
        intro hemp
        exact absurd hemp (by simp [Row.insert_values])
      · rw [if_neg (by simp [hx])]
        exact ha

theorem Row.next_empty_eq_new {r : Row} (h : r.next.values = ∅) :
    r.next = Row.new := by
  revert h
  unfold Row.next
  exact Row.foldl_insert_empty_eq _ _ Row.new (fun _ => rfl)

theorem Row.span_next (r : Row) (h : 0 ≤ r.max - r.min) :
    r.next.max - r.next.min ≤ r.max - r.min + 2 ∧ 0 ≤ r.next.max - r.next.min := by
  by_cases he : r.next.values = ∅
  · rw [Row.next_empty_eq_new he]
    have h0 : Row.new.max - Row.new.min = 0 := rfl
    rw [h0]
    omega
  · have hne := Finset.nonempty_iff_ne_empty.mpr he
    obtain ⟨hmin, hmax, hbnd⟩ := RowInv_next r hne
    have b1 := Row.mem_next_bounds hmin
    have b2 := Row.mem_next_bounds hmax
    have b3 := (hbnd _ hmax).1
    omega

theorem Row.from_string_go_bounds :
    ∀ (cs : List Char) (i : ℤ) (a : Row) (x : ℤ),
      x ∈ (Row.from_string_go cs i a).values →
        x ∈ a.values ∨ (i ≤ x ∧ x < i + cs.length) := by
  intro cs
  induction cs with
  | nil => intro i a x hx; exact Or.inl hx
  | cons c cs ih =>
      intro i a x hx
      rw [Row.from_string_go] at hx
      rcases ih (i + 1) _ x hx with hx' | hx'
      · by_cases hc : c = '#'
        · rw [if_pos hc, Row.insert_values] at hx'
          rcases Finset.mem_insert.mp hx' with rfl | hx''
          · right
            simp only [List.length_cons]
            push_cast
            omega
          · exact Or.inl hx''
        · rw [if_neg hc] at hx'
          exact Or.inl hx'
      · right
        simp only [List.length_cons] at *
        push_cast at *
        omega

theorem Row.from_string_go_empty_eq :
    ∀ (cs : List Char) (i : ℤ) (a : Row), (a.values = ∅ → a = Row.new) →
      ((Row.from_string_go cs i a).values = ∅ →
        Row.from_string_go cs i a = Row.new) := by
  intro cs
  induction cs with
  | nil => intro i a ha; exact ha
  | cons c cs ih =>
      intro i a ha
      rw [Row.from_string_go]
      refine ih _ _ ?_
      by_cases hc : c = '#'
      · rw [if_pos hc]
        intro hemp
        exact absurd hemp (by simp [Row.insert_values])
      · rw [if_neg hc]
        exact ha

theorem Row.from_string_span (s : String) :
    0 ≤ (Row.from_string s).max - (Row.from_string s).min ∧
      (Row.from_string s).max - (Row.from_string s).min ≤ (s.length : ℤ) := by
  by_cases he : (Row.from_string s).values = ∅
  · have : Row.from_string s = Row.new :=
      Row.from_string_go_empty_eq s.data 0 Row.new (fun _ => rfl) he
    rw [this]
    simp [Row.new]
  · have hne := Finset.nonempty_iff_ne_empty.mpr he
    obtain ⟨hmin, hmax, hbnd⟩ := RowInv_from_string s hne
    have b1 := Row.from_string_go_bounds s.data 0 Row.new _ hmin
    have b2 := Row.from_string_go_bounds s.data 0 Row.new _ hmax
    have b3 := (hbnd _ hmax).1
    simp only [Row.new_values, Finset.not_mem_empty, false_or] at b1 b2
    have hlen : (s.data.length : ℤ) = (s.length : ℤ) := rfl
    omega

theorem Row.span_iterate (s : String) (k : ℕ) :
    0 ≤ (Row.next^[k] (Row.from_string s)).max - (Row.next^[k] (Row.from_string s)).min ∧
      (Row.next^[k] (Row.from_string s)).max - (Row.next^[k] (Row.from_string s)).min
        ≤ (s.length : ℤ) + 2 * k := by
  induction k with
  | zero =>
      rw [Function.iterate_zero_apply]
      have h := Row.from_string_span s
      push_cast
      omega
  | succ n ih =>
      rw [Function.iterate_succ_apply']
      have h := Row.span_next _ ih.1
      push_cast
      constructor
      · exact h.2
      · have := h.1
        omega

/-- C9: every filled position of `next` lies in `[min - 1, max + 1]`, the span
grows by at most 2 per step, and after `k` steps of a run it is bounded by the
line length plus `2k` (hence by the length plus `2 * maxDepth` within the
budget). -/
theorem claim_C9 :
    (∀ (r : Row) (p : ℤ), p ∈ r.next.values → r.min - 1 ≤ p ∧ p ≤ r.max + 1) ∧
    (∀ r : Row, 0 ≤ r.max - r.min → r.next.max - r.next.min ≤ r.max - r.min + 2) ∧
    (∀ (s : String) (k : ℕ),
        (Row.next^[k] (Row.from_string s)).max - (Row.next^[k] (Row.from_string s)).min
          ≤ (s.length : ℤ) + 2 * k) ∧
    (∀ (s : String) (k md : ℕ), k ≤ md →
        (Row.next^[k] (Row.from_string s)).max - (Row.next^[k] (Row.from_string s)).min
          ≤ (s.length : ℤ) + 2 * md) := by
  refine ⟨fun r p h => Row.mem_next_bounds h, fun r h => (Row.span_next r h).1,
    fun s k => (Row.span_iterate s k).2, fun s k md hk => ?_⟩
  have := (Row.span_iterate s k).2
  have hcast : (k : ℤ) ≤ (md : ℤ) := by exact_mod_cast hk
  omega

theorem Row.blink_kill {r x : Row} (hInvx : RowInv x)
    (hspanx : x.max - x.min < r.next.max - r.next.min)
    (hne : r.next.values.Nonempty) : r.next.values ≠ x.values := by
  intro he
  have heq := Row.eq_of_values_eq (RowInv_next r) hInvx hne he
  rw [heq] at hspanx
  omega

theorem Row.glide_kill {n x : Row} (hInvx : RowInv x)
    (hspanx : x.max - x.min < n.max - n.min) (hInvn : RowInv n)
    (hne : n.values.Nonempty) : n.is_gliding x = false := by
  cases hg : n.is_gliding x with
  | false => rfl
  | true =>
      exfalso
      rw [Row.is_gliding_iff] at hg
      obtain ⟨hcard, hmin, hshift⟩ := hg
      obtain ⟨hnmin, hnmax, hnbnd⟩ := hInvn hne
      have hx := hshift n.max hnmax
      have hxne : x.values.Nonempty := ⟨_, hx⟩
      obtain ⟨hxmin, hxmax, hxbnd⟩ := hInvx hxne
      have hb := (hxbnd _ hx).2
      omega

/-- If the span strictly grows along the whole remaining trajectory (and every
next configuration is non-empty), no check of the recursion ever fires and the
fuel runs out into `Other`. -/
theorem Row.dpr_go_other_of_span_mono :
    ∀ (fuel : ℕ) (r : Row) (prev : List Row),
      (∀ x ∈ prev, RowInv x) →
      (∀ x ∈ prev, x.max - x.min < r.next.max - r.next.min) →
      (∀ j : ℕ, j ≤ fuel →
        (Row.next^[j] r.next).values ≠ ∅ ∧
        (Row.next^[j] r.next).max - (Row.next^[j] r.next).min
          < (Row.next^[j + 1] r.next).max - (Row.next^[j + 1] r.next).min) →
      Row.dpr_go r fuel prev = Pattern.Other := by
  intro fuel
  induction fuel with
  | zero =>
      intro r prev hInv hspan htraj
      have hne : r.next.values ≠ ∅ := by
        have := (htraj 0 le_rfl).1
        rwa [Function.iterate_zero_apply] at this
      have hne' := Finset.nonempty_iff_ne_empty.mpr hne
      rw [Row.dpr_go]
      rw [if_neg hne, if_neg ?hb, if_neg ?hg]
      case hb =>
        simp only [List.any_eq_true, Row.eqRow, decide_eq_true_eq, not_exists,
          not_and]
        intro x hx
        have hx' : x ∈ prev := List.dropLast_subset prev hx
        exact Row.blink_kill (hInv x hx') (hspan x hx') hne'
      case hg =>
        simp only [List.any_eq_true, not_exists, not_and]
        intro x hx hgx
        rw [Row.glide_kill (hInv x hx) (hspan x hx) (RowInv_next r) hne'] at hgx
        cases hgx
  | succ n ih =>
      intro r prev hInv hspan htraj
      have hne : r.next.values ≠ ∅ := by
        have := (htraj 0 (Nat.zero_le _)).1
        rwa [Function.iterate_zero_apply] at this
      have hne' := Finset.nonempty_iff_ne_empty.mpr hne
      have hstep : r.next.max - r.next.min < r.next.next.max - r.next.next.min := by
        have := (htraj 0 (Nat.zero_le _)).2
        rwa [Function.iterate_zero_apply, Function.iterate_one] at this
      rw [Row.dpr_go]
      rw [if_neg hne, if_neg ?hb2, if_neg ?hg2]
      case hb2 =>
        simp only [List.any_eq_true, Row.eqRow, decide_eq_true_eq, not_exists,
          not_and]
        intro x hx
        have hx' : x ∈ prev := List.dropLast_subset prev hx
        exact Row.blink_kill (hInv x hx') (hspan x hx') hne'
      case hg2 =>
        simp only [List.any_eq_true, not_exists, not_and]
        intro x hx hgx
        rw [Row.glide_kill (hInv x hx) (hspan x hx) (RowInv_next r) hne'] at hgx
        cases hgx
      refine ih r.next (prev ++ [r.next]) ?_ ?_ ?_
      · intro x hx
        rcases List.mem_append.mp hx with hx' | hx'
        · exact hInv x hx'
        · rw [List.mem_singleton] at hx'
          subst hx'
          exact RowInv_next r
      · intro x hx
        rcases List.mem_append.mp hx with hx' | hx'
        · have := hspan x hx'
          omega
        · rw [List.mem_singleton] at hx'
          subst hx'
          exact hstep
      · intro j hj
        have e : Row.next^[j] r.next.next = Row.next^[j + 1] r.next := by
          rw [← Function.iterate_succ_apply]
        have e' : Row.next^[j + 1] r.next.next = Row.next^[j + 1 + 1] r.next := by
          rw [← Function.iterate_succ_apply]
        rw [e, e']
        exact htraj (j + 1) (by omega)

/-- The configuration reached from `"###.#....#.###"` after `k` steps: two
4-cell gliders moving apart at speed 1. -/
def glider_row (k : ℤ) : Row :=
  ⟨{-k, 1 - k, 2 - k, 4 - k, 9 + k, 11 + k, 12 + k, 13 + k}, -k, 13 + k⟩

theorem glider_row_mem (k p : ℤ) :
    p ∈ (glider_row k).values ↔
      (p = -k ∨ p = 1 - k ∨ p = 2 - k ∨ p = 4 - k ∨
       p = 9 + k ∨ p = 11 + k ∨ p = 12 + k ∨ p = 13 + k) := by
  simp [glider_row]

theorem glider_row_min (k : ℤ) : (glider_row k).min = -k := rfl

theorem glider_row_max (k : ℤ) : (glider_row k).max = 13 + k := rfl

theorem glider_row_inv (k : ℤ) (hk : 0 ≤ k) : RowInv (glider_row k) := by
  intro _
  refine ⟨?_, ?_, ?_⟩
  · rw [glider_row_mem, glider_row_min]
    tauto
  · rw [glider_row_mem, glider_row_max]
    tauto
  · intro x hx
    rw [glider_row_mem] at hx
    rw [glider_row_min, glider_row_max]
    omega

theorem glider_step (k : ℤ) (hk : 0 ≤ k) :
    (glider_row k).next = glider_row (k + 1) := by
  have hv : (glider_row k).next.values = (glider_row (k + 1)).values := by
    ext p
    rw [Row.mem_next]
    simp only [glider_row_min, glider_row_max]
    by_cases hp : p ∈ (glider_row k).values
    · rw [if_pos hp, Row.test_rule_2_iff, Row.calc_neighbor_sum_eq]
      simp only [glider_row_mem] at hp ⊢
      split_ifs <;> omega
    · rw [if_neg hp, Row.test_rule_1_iff, Row.calc_neighbor_sum_eq]
      simp only [glider_row_mem] at hp ⊢
      split_ifs <;> omega
  have hne : (glider_row k).next.values.Nonempty := by
    rw [hv]
    exact ⟨-(k + 1), by rw [glider_row_mem]; tauto⟩
  exact Row.eq_of_values_eq (RowInv_next _) (glider_row_inv (k + 1) (by omega)) hne hv

theorem glider_traj (k : ℕ) :
    Row.next^[k] (Row.from_string "###.#....#.###") = glider_row (k : ℤ) := by
  induction k with
  | zero =>
      rw [Function.iterate_zero_apply]
      refine Row.ext_of _ _ ?_ ?_ ?_
      · decide
      · decide
      · decide
  | succ n ih =>
      rw [Function.iterate_succ_apply', ih, glider_step (n : ℤ) (by positivity)]
      congr 1

/-- C5: the step of the classifier returns Other exactly when the budget is
exhausted and none of the vanishing, blinking or gliding checks fires (so a
cycle or translation found at the budget boundary is still reported), and
`"###.#....#.###"` with budget 100 classifies as Other. -/
theorem claim_C5 :
    (∀ (r : Row) (md cd : ℕ) (prev : List Row),
        Row.classify_step r md cd prev = StepOut.term Pattern.Other ↔
          (r.next.values ≠ ∅ ∧
           (∀ x ∈ prev.dropLast, r.next.values ≠ x.values) ∧
           (∀ x ∈ prev, r.next.is_gliding x = false) ∧
           md ≤ cd)) ∧
    Row.detect_pattern "###.#....#.###" 100 = Pattern.Other := by
  refine ⟨Row.classify_step_other_iff, ?_⟩
  rw [Row.detect_pattern_eq_go]
  have h1 : Row.next (Row.from_string "###.#....#.###") = glider_row 1 := by
    have h := glider_traj 1
    rw [Function.iterate_one] at h
    rw [h]
    norm_num
  apply Row.dpr_go_other_of_span_mono
  · intro x hx
    rw [List.mem_singleton] at hx
    subst hx
    exact RowInv_from_string _
  · intro x hx
    rw [List.mem_singleton] at hx
    subst hx
    rw [h1]
    decide
  · intro j _
    have e1 : Row.next^[j] (Row.next (Row.from_string "###.#....#.###"))
        = glider_row ((j : ℤ) + 1) := by
      rw [← Function.iterate_succ_apply, glider_traj (j + 1)]
      congr 1
    have e2 : Row.next^[j + 1] (Row.next (Row.from_string "###.#....#.###"))
        = glider_row ((j : ℤ) + 2) := by
      rw [← Function.iterate_succ_apply, glider_traj (j + 1 + 1)]
      congr 1
    rw [e1, e2]
    constructor
    · simp [glider_row]
    · rw [glider_row_min, glider_row_max, glider_row_min, glider_row_max]
      omega

set_option maxRecDepth 1000000 in
set_option maxHeartbeats 4000000 in
/-- C2: the step of the classifier returns Blinking exactly when the non-empty
next configuration equals (as a filled set) a history entry other than the
last one, and `"#######"` with budget 100 classifies as Blinking (an exact
repeat is Blinking, never Gliding). -/
theorem claim_C2 :
    (∀ (r : Row) (md cd : ℕ) (prev : List Row),
        Row.classify_step r md cd prev = StepOut.term Pattern.Blinking ↔
          (r.next.values ≠ ∅ ∧ ∃ x ∈ prev.dropLast, r.next.values = x.values)) ∧
    Row.detect_pattern "#######" 100 = Pattern.Blinking := by
  refine ⟨Row.classify_step_blinking_iff, ?_⟩
  rw [Row.detect_pattern_eq_go]
  decide

set_option maxRecDepth 1000000 in
set_option maxHeartbeats 1000000 in
/-- C3: `is_gliding` tests equal cardinality, moved minimum and shifted
containment; the step of the classifier returns Gliding when the non-empty
next configuration glides onto any history entry (and no exact repeat fires
first); and `"##.######"` with budget 100 classifies as Gliding. -/
theorem claim_C3 :
    (∀ a b : Row, a.is_gliding b = true ↔
        (a.values.card = b.values.card ∧ a.min ≠ b.min ∧
          ∀ x ∈ a.values, x + (b.min - a.min) ∈ b.values)) ∧
    (∀ (r : Row) (md cd : ℕ) (prev : List Row),
        r.next.values ≠ ∅ →
        (∀ x ∈ prev.dropLast, r.next.values ≠ x.values) →
        (∃ x ∈ prev, r.next.is_gliding x = true) →
        Row.classify_step r md cd prev = StepOut.term Pattern.Gliding) ∧
    Row.detect_pattern "##.######" 100 = Pattern.Gliding := by
  refine ⟨fun a b => Row.is_gliding_iff, Row.classify_step_gliding_of, ?_⟩
  rw [Row.detect_pattern_eq_go]
  decide
